import Mathlib

/-!
Verification of the multi-model response orchestration and evaluation
reconciliation engine of the ollamalens repository.

The TypeScript source is shallowly embedded: the zustand chat store's
`currentResponses` record becomes an association list from model name to
`ModelResponse`; the streaming loop of `useSendMessage`, the completion
predicates, the auto-evaluation effect of `useResponseEvaluation`, the
payload validators of `response-evaluation.ts` and the view-merge of
`comparison-view.tsx` become Lean functions over that state.  JavaScript
numbers appearing in evaluation scores are modelled as rationals; JSON
payloads are modelled by the inductive type `JVal`.
-/

namespace OllamaLens

/-- The whitespace class of JavaScript `String.prototype.trim()`, restricted
to the ASCII characters that occur in model output. -/
def jsWhitespace (c : Char) : Bool :=
  c = ' ' || c = '\t' || c = '\n' || c = '\r'

/-- JavaScript `s.trim()`: strip leading and trailing whitespace. -/
def jsTrim (s : String) : String :=
  String.mk (((s.data.dropWhile jsWhitespace).reverse.dropWhile jsWhitespace).reverse)

/-- `ModelResponse` from `src/types`: one model's transient streaming state. -/
structure ModelResponse where
  model : String
  content : String
  done : Bool
  error : Option String := none
deriving Repr, DecidableEq

/-- The chat store's `currentResponses` record (`model -> ModelResponse`),
embedded as an association list that keeps JavaScript object key order. -/
abbrev Tracker := List (String × ModelResponse)

/-- Property access `currentResponses[model]` on the record. -/
def getResponse (t : Tracker) (m : String) : Option ModelResponse :=
  match t with
  | [] => none
  | p :: ps => if p.1 = m then some p.2 else getResponse ps m

/-- `addResponse` from `src/store/chat-store.ts`: the spread
`{...state.currentResponses, [model]: response}` replaces the value of an
existing key in place and appends a fresh key at the end. -/
def addResponse (t : Tracker) (m : String) (r : ModelResponse) : Tracker :=
  if t.any (fun p => p.1 = m) then
    t.map (fun p => if p.1 = m then (m, r) else p)
  else
    t ++ [(m, r)]

/-- `clearResponses` from `src/store/chat-store.ts`. -/
def clearResponses : Tracker := []

/-- `clearModelResponse` from `src/store/chat-store.ts`: deletes the one
key `model` from the record. -/
def clearModelResponse (t : Tracker) (m : String) : Tracker :=
  t.filter (fun p => ¬ p.1 = m)

/-- The completion predicate inside `waitForAllResponsesDone`
(`useSendMessage`): `models.every(m => response?.done === true &&
response?.content?.trim().length > 0)` against a store snapshot. -/
def allDone (t : Tracker) (models : List String) : Bool :=
  models.all (fun m =>
    match getResponse t m with
    | some r => r.done && decide (0 < (jsTrim r.content).length)
    | none => false)

/-- The `{ content, done }` entries of the responses map handed to
`useResponseEvaluation`. -/
structure RespEntry where
  content : String
  done : Bool
deriving Repr, DecidableEq

/-- The `allComplete` check of the auto-evaluation effect
(`use-response-evaluation.ts`): `Array.from(responses.values()).every(r =>
r.done && r.content.trim().length > 0)`. -/
def allComplete (responses : List (String × RespEntry)) : Bool :=
  responses.all (fun p => p.2.done && decide (0 < (jsTrim p.2.content).length))

/-- One turn's tracker contents rebuilt from the stream of `addResponse`
upserts, starting from the `clearResponses` state. -/
def applyEvents (events : List (String × ModelResponse)) : Tracker :=
  events.foldl (fun t e => addResponse t e.1 e.2) clearResponses

/-! JSON payloads and the evaluation validators of
`src/lib/utils/response-evaluation.ts`. -/

/-- JSON-representable JavaScript values, plus `undefined` as the result of
a missing-property access.  Score numbers are modelled as rationals. -/
inductive JVal where
  | null
  | undefined
  | bool (b : Bool)
  | num (q : ℚ)
  | str (s : String)
  | arr (elems : List JVal)
  | obj (fields : List (String × JVal))

/-- First-match field lookup on a JavaScript object literal. -/
def getField (fields : List (String × JVal)) (k : String) : JVal :=
  match fields with
  | [] => .undefined
  | f :: fs => if f.1 = k then f.2 else getField fs k

/-- JavaScript property access `v.k`: throws a `TypeError` on null and
undefined, yields the field (or `undefined`) on objects, and `undefined`
on every other primitive. -/
def JVal.get (v : JVal) (k : String) : Except String JVal :=
  match v with
  | .null => .error "TypeError: cannot read properties of null"
  | .undefined => .error "TypeError: cannot read properties of undefined"
  | .obj fields => .ok (getField fields k)
  | _ => .ok .undefined

/-- Optional chaining `v?.k`: yields `undefined` instead of throwing when
`v` is null or undefined. -/
def JVal.getOpt (v : JVal) (k : String) : JVal :=
  match v with
  | .obj fields => getField fields k
  | _ => .undefined

/-- Digit-string value, most significant first. -/
def digitsToNat (cs : List Char) : Nat :=
  cs.foldl (fun a c => a * 10 + (c.toNat - '0'.toNat)) 0

/-- Model of JavaScript `parseFloat` on a string: skip leading whitespace,
read an optional sign and the longest `digits[.digits]` prefix; `none`
stands for NaN.  (Exponent suffixes are ignored, as in the score strings
this code receives.) -/
def parseFloatQ (s : String) : Option ℚ :=
  let cs := s.data.dropWhile jsWhitespace
  let signAndRest : ℚ × List Char :=
    match cs with
    | '-' :: rest => (-1, rest)
    | '+' :: rest => (1, rest)
    | _ => (1, cs)
  let intPart := signAndRest.2.takeWhile Char.isDigit
  let rest := signAndRest.2.dropWhile Char.isDigit
  let fracPart : List Char :=
    match rest with
    | '.' :: r => r.takeWhile Char.isDigit
    | _ => []
  if intPart.isEmpty ∧ fracPart.isEmpty then none
  else some (signAndRest.1 *
    ((digitsToNat intPart : ℚ) + (digitsToNat fracPart : ℚ) / (10 ^ fracPart.length)))

/-- The score coercion `typeof value === "number" ? value : parseFloat(value)`;
`none` stands for NaN.  (JavaScript stringifies non-string arguments of
`parseFloat`; this model sends composite values to NaN, which differs only
on exotic inputs such as single-element numeric arrays.) -/
def toNumber (v : JVal) : Option ℚ :=
  match v with
  | .num q => some q
  | .str s => parseFloatQ s
  | _ => none

/-- JavaScript `Math.round`: round half toward positive infinity. -/
def jsRound (q : ℚ) : ℤ := ⌊q + 1 / 2⌋

/-- `Math.round(q * 10) / 10`: round to one decimal place. -/
def round1 (q : ℚ) : ℚ := (jsRound (q * 10) : ℚ) / 10

/-- `validateScore` inside `validateEvaluation`: coerce the value, throw on
NaN or an out-of-bound number, then round to one decimal place and clamp
to [1, 4].  (The interpolated offending value is dropped from the error
string.) -/
def validateScore (value : JVal) (name : String) : Except String ℚ :=
  match toNumber value with
  | none => .error ("Invalid " ++ name ++ " score")
  | some num =>
    if num < 1 ∨ num > 4 then .error ("Invalid " ++ name ++ " score")
    else .ok (max 1 (min 4 (round1 num)))

/-- `ResponseEvaluation` from `src/types`; `parameterScores` keeps the five
literal object keys in construction order. -/
structure ResponseEvaluation where
  readability : String
  parameterScores : List (String × ℚ)
  finalScore : ℚ
deriving Repr, DecidableEq

/-- The accepted readability levels. -/
def readabilityLevels : List String := ["easy", "medium", "difficult", "technical"]

/-- The readability gate at the top of `validateEvaluation`:
`["easy","medium","difficult","technical"].includes(readability)`, throwing
on failure. -/
def validateReadability (readability : JVal) : Except String String :=
  match readability with
  | .str s =>
    if readabilityLevels.contains s then Except.ok s
    else Except.error "Invalid readability level"
  | _ => Except.error "Invalid readability level"

/-- `validateEvaluation` from `response-evaluation.ts`. -/
def validateEvaluation (data : JVal) : Except String ResponseEvaluation := do
  let readability ← data.get "readability"
  let readabilityStr ← validateReadability readability
  let scores ← data.get "parameterScores"
  let accuracy ← validateScore (scores.getOpt "accuracy") "accuracy"
  let depth ← validateScore (scores.getOpt "depth") "depth"
  let clarity ← validateScore (scores.getOpt "clarity") "clarity"
  let structureScore ← validateScore (scores.getOpt "structure") "structure"
  let relevance ← validateScore (scores.getOpt "relevance") "relevance"
  let parameterScores : List (String × ℚ) :=
    [("accuracy", accuracy), ("depth", depth), ("clarity", clarity),
     ("structure", structureScore), ("relevance", relevance)]
  let finalScoreField ← data.get "finalScore"
  let finalScore : ℚ :=
    match finalScoreField with
    | .num q => max 1 (min 4 (round1 q))
    | _ =>
      round1 ((accuracy + depth + clarity + structureScore + relevance) / 5)
  pure { readability := readabilityStr, parameterScores := parameterScores,
         finalScore := max 1 (min 4 finalScore) }

/-- `HighlightAnalysis` from `src/types`. -/
structure HighlightAnalysis where
  similarSentences : List String
  differentSentences : List String
deriving Repr, DecidableEq

/-- `Array.isArray(v) ? v.filter(s => typeof s === "string") : []`. -/
def stringElems (v : JVal) : List String :=
  match v with
  | .arr xs => xs.filterMap (fun x => match x with | .str s => some s | _ => none)
  | _ => []

/-- `validateHighlightAnalysis` from `response-evaluation.ts`. -/
def validateHighlightAnalysis (data : JVal) : Except String HighlightAnalysis := do
  let similar ← data.get "similarSentences"
  let different ← data.get "differentSentences"
  pure ⟨stringElems similar, stringElems different⟩

/-! The evaluation reconciler: the auto-evaluation effect of
`useResponseEvaluation` (`use-response-evaluation.ts`) as a state machine.
The user question and the per-model final contents are fixed for a turn,
so the cache keys `question:model:contentPrefix` are identified with the
model names. -/

/-- The hook state read and written by the Completion Gate effect: the key
sets of `state.evaluations`, `state.loading`, `state.errors`, the
idempotency set `evaluatedModelsRef.current` and the keys of
`evaluationCacheRef.current`. -/
structure EvalHookState where
  evaluations : List String
  loading : List String
  errors : List String
  evaluatedModels : List String
  cache : List String
deriving Repr, DecidableEq

/-- The hook state at mount (and after the question-change reset). -/
def initialEvalHookState : EvalHookState := ⟨[], [], [], [], []⟩

/-- JavaScript `Set.add` / `Map.set` on a key set. -/
def addKey (l : List String) (m : String) : List String :=
  if m ∈ l then l else l ++ [m]

/-- JavaScript `Set.delete` / `Map.delete` on a key set. -/
def removeKey (l : List String) (m : String) : List String :=
  l.filter (fun x => ¬ x = m)

/-- One run of the auto-evaluation effect (a Completion Gate fire): the
guards, the two candidate filters (the second adds to
`evaluatedModelsRef.current` while it runs), then the dispatch loop with
its cache short-circuit.  Returns the updated hook state and the models
for which an evaluation request was dispatched during this run. -/
def gateFire (responses : List (String × RespEntry)) (s : EvalHookState) :
    EvalHookState × List String :=
  if responses.length = 0 then (s, [])
  else if ¬ allComplete responses then (s, [])
  else
    let nonEmpty := responses.filter (fun p => 0 < (jsTrim p.2.content).length)
    let selected := nonEmpty.foldl
      (fun (acc : List String × List String) p =>
        if p.1 ∉ acc.1 ∧ p.1 ∉ s.evaluations ∧ p.1 ∉ s.loading then
          (addKey acc.1 p.1, acc.2 ++ [p.1])
        else acc)
      (s.evaluatedModels, [])
    let s1 := { s with evaluatedModels := selected.1 }
    selected.2.foldl
      (fun (acc : EvalHookState × List String) m =>
        if m ∈ acc.1.cache then
          ({ acc.1 with evaluations := addKey acc.1.evaluations m }, acc.2)
        else
          ({ acc.1 with loading := addKey acc.1.loading m }, acc.2 ++ [m]))
      (s1, [])

/-- Resolution of a dispatched evaluation request that succeeds: the
`.then` handler caches the result, stores it into the result map and
clears the loading and error marks.  A resolution can only arrive for a
model whose request is in flight. -/
def completeSuccess (s : EvalHookState) (m : String) : EvalHookState :=
  if m ∈ s.loading then
    { s with cache := addKey s.cache m,
             evaluations := addKey s.evaluations m,
             loading := removeKey s.loading m,
             errors := removeKey s.errors m }
  else s

/-- An interleaving of Completion Gate fires and successful request
resolutions. -/
inductive EvalStep where
  | fire
  | resolve (m : String)
deriving Repr, DecidableEq

/-- Run a sequence of effect fires and successful resolutions, collecting
every dispatched evaluation request. -/
def runEvalSteps (responses : List (String × RespEntry)) (s : EvalHookState) :
    List EvalStep → EvalHookState × List String
  | [] => (s, [])
  | .fire :: rest =>
    let fired := gateFire responses s
    let tail := runEvalSteps responses fired.1 rest
    (tail.1, fired.2 ++ tail.2)
  | .resolve m :: rest => runEvalSteps responses (completeSuccess s m) rest

/-- Reachability invariant of the evaluation reconciler, relating the hook
state to the multiset of requests dispatched so far (from a fresh
question, with `keys` the models of the responses map). -/
def EvalInvariant (keys : List String) (s : EvalHookState)
    (dispatched : List String) : Prop :=
  (∀ m, m ∈ s.cache → m ∈ s.evaluations)
  ∧ (∀ m, m ∈ s.evaluations → m ∈ s.evaluatedModels)
  ∧ (∀ m, m ∈ s.loading → m ∈ s.evaluatedModels)
  ∧ (∀ m, m ∈ s.evaluatedModels ↔ m ∈ dispatched)
  ∧ dispatched.Nodup
  ∧ (∀ m, m ∈ s.evaluatedModels → m ∈ keys)

/-! The orchestrator: `streamModelResponse`, the sequential loop of
`sendMessage` and `regenerateModel` from `use-send-message.ts`. -/

/-- A persisted chat message. -/
structure Message where
  role : String
  content : String
  model : Option String := none
deriving Repr, DecidableEq

/-- One parsed streaming line: `data.message?.content || data.response || ""`
together with `data.done || false`. -/
structure StreamChunk where
  content : String
  done : Bool
deriving Repr, DecidableEq

/-- The observable behaviour of one `/api/ollama/chat` call: the parsed
chunks followed by a clean end of stream, or the chunks applied before a
thrown failure (fetch rejection, non-ok status, unreadable body, or a
mid-stream read error) together with its message. -/
inductive StreamOutcome where
  | ok (chunks : List StreamChunk)
  | failAfter (chunks : List StreamChunk) (errMsg : String)
deriving Repr, DecidableEq

/-- The chunk loop of `streamModelResponse`: for every parsed line with
non-empty content, extend `fullContent` and upsert the tracker entry with
the accumulated content and the line's done flag. -/
def applyChunks (model : String) (chunks : List StreamChunk) (t : Tracker)
    (fullContent : String) : Tracker × String :=
  match chunks with
  | [] => (t, fullContent)
  | c :: cs =>
    if c.content ≠ "" then
      applyChunks model cs
        (addResponse t model ⟨model, fullContent ++ c.content, c.done, none⟩)
        (fullContent ++ c.content)
    else
      applyChunks model cs t fullContent

/-- Result of one `streamModelResponse` call: tracker, persisted messages
and the returned `ModelResponse`. -/
structure StreamResult where
  tracker : Tracker
  messages : List Message
  response : ModelResponse
deriving Repr, DecidableEq

/-- `streamModelResponse` from `use-send-message.ts`.  On success it
upserts the final entry with `done: true` and saves the assistant message
when the content is non-empty; the catch branch finalizes the entry as
`{ content: "", done: true, error }` and persists nothing. -/
def streamModelResponse (model : String) (outcome : StreamOutcome)
    (shouldSaveMessage : Bool) (t : Tracker) (msgs : List Message) : StreamResult :=
  match outcome with
  | .ok chunks =>
    let streamed := applyChunks model chunks t ""
    let finalResponse : ModelResponse := ⟨model, streamed.2, true, none⟩
    let t2 := addResponse streamed.1 model finalResponse
    let msgs' :=
      if shouldSaveMessage ∧ finalResponse.content ≠ "" then
        msgs ++ [⟨"assistant", finalResponse.content, some model⟩]
      else msgs
    ⟨t2, msgs', finalResponse⟩
  | .failAfter chunks errMsg =>
    let streamed := applyChunks model chunks t ""
    let errorResponse : ModelResponse := ⟨model, "", true, some errMsg⟩
    ⟨addResponse streamed.1 model errorResponse, msgs, errorResponse⟩

/-- The sequential model loop of `sendMessage`, entered after the user
message has been persisted and the tracker cleared; `outcomes` gives each
model's stream behaviour.  `streamModelResponse` never rethrows, so the
loop always proceeds to the next model; the returned list records the
models actually invoked, in order. -/
def sendMessageLoop (outcomes : String → StreamOutcome) (models : List String)
    (t : Tracker) (msgs : List Message) : Tracker × List Message × List String :=
  match models with
  | [] => (t, msgs, [])
  | m :: ms =>
    let res := streamModelResponse m (outcomes m) true t msgs
    let rest := sendMessageLoop outcomes ms res.tracker res.messages
    (rest.1, rest.2.1, m :: rest.2.2)

/-- The content accumulated over a chunk list (the value of `fullContent`
after the read loop). -/
def streamedContent (chunks : List StreamChunk) : String :=
  chunks.foldl (fun a c => if c.content ≠ "" then a ++ c.content else a) ""

/-- The tracker entry a model ends the turn with, as a function of its own
stream outcome alone. -/
def finalEntryOf (model : String) (o : StreamOutcome) : ModelResponse :=
  match o with
  | .ok chunks => ⟨model, streamedContent chunks, true, none⟩
  | .failAfter _ errMsg => ⟨model, "", true, some errMsg⟩

/-- The assistant messages one model's stream persists, as a function of
its own outcome alone. -/
def persistedOf (model : String) (o : StreamOutcome) : List Message :=
  match o with
  | .ok chunks =>
    if streamedContent chunks ≠ "" then
      [⟨"assistant", streamedContent chunks, some model⟩]
    else []
  | .failAfter _ _ => []

/-- Index of the last user message:
`[...messages].reverse().findIndex(m => m.role === "user")` translated back
to a forward index. -/
def lastUserIndex (msgs : List Message) : Option Nat :=
  match msgs.reverse.findIdx? (fun msg => msg.role == "user") with
  | some revIdx => some (msgs.length - 1 - revIdx)
  | none => none

/-- Indexed walk behind `findOldResponseIdx`. -/
def findOldResponseIdxAux (msgs : List Message) (idx : Nat) (actualIndex : Nat)
    (model : String) : Option Nat :=
  match msgs with
  | [] => none
  | msg :: rest =>
    if actualIndex < idx ∧ msg.role = "assistant" ∧ msg.model = some model then
      some idx
    else findOldResponseIdxAux rest (idx + 1) actualIndex model

/-- `currentMessages.find((msg, idx) => idx > actualIndex &&
msg.role === "assistant" && msg.model === model)`, as an index. -/
def findOldResponseIdx (msgs : List Message) (actualIndex : Nat) (model : String) :
    Option Nat :=
  findOldResponseIdxAux msgs 0 actualIndex model

/-- The state `regenerateModel` can mutate: the tracker, the persisted
messages, the regenerating set, and (for the frame property) the
evaluation hook's per-model result map, which `regenerateModel` never
touches. -/
structure OrchestratorState where
  tracker : Tracker
  messages : List Message
  regenerating : List String
  evaluations : List (String × ResponseEvaluation)
deriving Repr, DecidableEq

/-- How a `regenerateModel` call ended. -/
inductive RegenOutcome where
  | rejectedNoChat
  | abortedNoUserMessage
  | started
deriving Repr, DecidableEq

/-- `regenerateModel` up to the point where the new stream starts (the
regeneration window): reject without any mutation when no chat is open;
otherwise mark the model regenerating, clear its tracker entry, and delete
its old persisted response for the current turn (the first assistant
message of this model after the last user message).  When no user message
exists the function returns early, after the tracker entry was already
cleared. -/
def regenerateModelWindow (currentChatId : Option String)
    (st : OrchestratorState) (model : String) : OrchestratorState × RegenOutcome :=
  match currentChatId with
  | none => (st, .rejectedNoChat)
  | some _ =>
    let st1 := { st with regenerating := addKey st.regenerating model,
                         tracker := clearModelResponse st.tracker model }
    match lastUserIndex st1.messages with
    | none =>
      ({ st1 with regenerating := removeKey st1.regenerating model },
        .abortedNoUserMessage)
    | some actualIndex =>
      let msgs' :=
        match findOldResponseIdx st1.messages actualIndex model with
        | some oldIdx => st1.messages.eraseIdx oldIdx
        | none => st1.messages
      ({ st1 with messages := msgs' }, .started)

/-! The view reconciliation layer (`comparison-view.tsx`). -/

/-- First-match lookup in the saved per-model responses of a turn
(`turn.responses.get(model)`). -/
def getSaved (l : List (String × Message)) (m : String) : Option Message :=
  match l with
  | [] => none
  | p :: ps => if p.1 = m then some p.2 else getSaved ps m

/-- One model's entry in `TurnView`'s `responsesMap`: for the latest turn
prefer the live streaming entry whenever one exists (whatever its `done`
flag), else fall back to the saved message; older turns use saved messages
only. -/
def mergeEntry (isLatestTurn : Bool) (currentResponses : Tracker)
    (saved : List (String × Message)) (model : String) :
    Option (String × RespEntry) :=
  if isLatestTurn then
    match getResponse currentResponses model with
    | some streamingResponse =>
      some (model, ⟨streamingResponse.content, streamingResponse.done⟩)
    | none =>
      match getSaved saved model with
      | some savedResponse => some (model, ⟨savedResponse.content, true⟩)
      | none => none
  else
    match getSaved saved model with
    | some savedResponse => some (model, ⟨savedResponse.content, true⟩)
    | none => none

/-- The `responsesMap` merge of `TurnView` over the selected models. -/
def responsesMapMerge (isLatestTurn : Bool) (selectedModels : List String)
    (currentResponses : Tracker) (saved : List (String × Message)) :
    List (String × RespEntry) :=
  selectedModels.filterMap (mergeEntry isLatestTurn currentResponses saved)

/-- `ResponseCard`'s rendered text,
`content = streamingContent || response?.content || ""` (JavaScript `||`
treats the empty string as falsy). -/
def responseCardContent (streamingContent : Option String)
    (response : Option Message) : String :=
  let sc := streamingContent.getD ""
  if sc ≠ "" then sc else (response.map Message.content).getD ""

theorem getResponse_map_self (t : Tracker) (m : String) (r : ModelResponse)
    (h : t.any (fun p => p.1 = m) = true) :
    getResponse (t.map (fun p => if p.1 = m then (m, r) else p)) m = some r := by
  induction t with
  | nil => simp at h
  | cons p ps ih =>
    simp only [List.any_cons, Bool.or_eq_true, decide_eq_true_eq] at h
    by_cases hp : p.1 = m
    · simp [getResponse, hp]
    · rcases h with h | h
      · exact absurd h hp
      · simp only [List.map_cons, if_neg hp, getResponse, if_neg hp]
        exact ih h

theorem getResponse_map_ne (t : Tracker) (m m' : String) (r : ModelResponse)
    (h : m' ≠ m) :
    getResponse (t.map (fun p => if p.1 = m then (m, r) else p)) m' =
      getResponse t m' := by
  induction t with
  | nil => rfl
  | cons p ps ih =>
    by_cases hp : p.1 = m
    · have h1 : ¬ m = m' := fun hc => h hc.symm
      have h2 : ¬ p.1 = m' := by rw [hp]; exact h1
      simp only [List.map_cons, if_pos hp, getResponse, if_neg h1, if_neg h2]
      exact ih
    · simp only [List.map_cons, if_neg hp, getResponse]
      by_cases hq : p.1 = m'
      · simp [hq]
      · simp only [if_neg hq]
        exact ih

theorem getResponse_append_single (t : Tracker) (m m' : String) (r : ModelResponse) :
    getResponse (t ++ [(m, r)]) m' =
      match getResponse t m' with
      | some x => some x
      | none => if m = m' then some r else none := by
  induction t with
  | nil => simp [getResponse]
  | cons p ps ih =>
    simp only [List.cons_append, getResponse]
    by_cases hq : p.1 = m'
    · simp [hq]
    · simp only [if_neg hq]
      exact ih

theorem getResponse_addResponse_self (t : Tracker) (m : String) (r : ModelResponse) :
    getResponse (addResponse t m r) m = some r := by
  unfold addResponse
  by_cases h : t.any (fun p => p.1 = m)
  · rw [if_pos h]
    exact getResponse_map_self t m r h
  · rw [if_neg h, getResponse_append_single, if_pos rfl]
    have : getResponse t m = none := by
      induction t with
      | nil => rfl
      | cons p ps ih =>
        simp only [List.any_cons, Bool.or_eq_true, decide_eq_true_eq, not_or] at h
        simp only [getResponse, if_neg h.1]
        exact ih (by simpa using h.2)
    rw [this]

theorem getResponse_addResponse_ne (t : Tracker) (m m' : String) (r : ModelResponse)
    (h : m' ≠ m) : getResponse (addResponse t m r) m' = getResponse t m' := by
  unfold addResponse
  by_cases hmem : t.any (fun p => p.1 = m)
  · rw [if_pos hmem]
    exact getResponse_map_ne t m m' r h
  · rw [if_neg hmem, getResponse_append_single, if_neg (fun hc => h hc.symm)]
    cases getResponse t m' <;> rfl

theorem getResponse_eq_none_of_not_mem (l : Tracker) (m : String)
    (h : m ∉ l.map Prod.fst) : getResponse l m = none := by
  induction l with
  | nil => rfl
  | cons p ps ih =>
    simp only [List.map_cons, List.mem_cons, not_or] at h
    have h1 : ¬ p.1 = m := fun hc => h.1 hc.symm
    simp only [getResponse, if_neg h1]
    exact ih h.2

theorem mem_of_getResponse_eq_some (l : Tracker) (m : String) (r : ModelResponse)
    (h : getResponse l m = some r) : (m, r) ∈ l := by
  induction l with
  | nil => simp [getResponse] at h
  | cons p ps ih =>
    obtain ⟨a, b⟩ := p
    simp only [getResponse] at h
    by_cases hp : a = m
    · rw [if_pos hp] at h
      injection h with h
      subst hp; subst h
      exact List.mem_cons_self _ _
    · rw [if_neg hp] at h
      exact List.mem_cons_of_mem _ (ih h)

theorem getResponse_eq_some_of_mem (l : Tracker) (m : String) (r : ModelResponse)
    (hnd : (l.map Prod.fst).Nodup) (h : (m, r) ∈ l) : getResponse l m = some r := by
  induction l with
  | nil => simp at h
  | cons p ps ih =>
    simp only [List.map_cons, List.nodup_cons] at hnd
    rcases List.mem_cons.mp h with h | h
    · simp [getResponse, ← h]
    · have hne : p.1 ≠ m := by
        intro hc
        exact hnd.1 (hc ▸ List.mem_map.mpr ⟨(m, r), h, rfl⟩)
      simp only [getResponse, if_neg hne]
      exact ih hnd.2 h

/-- Folding a nodup-keyed event list into the empty tracker recovers that
event list's own association-list lookup. -/
theorem getResponse_foldl_addResponse (events : List (String × ModelResponse))
    (hnd : (events.map Prod.fst).Nodup) (acc : Tracker) (m : String) :
    getResponse (events.foldl (fun t e => addResponse t e.1 e.2) acc) m =
      match getResponse events m with
      | some r => some r
      | none => getResponse acc m := by
  induction events generalizing acc with
  | nil => simp [getResponse]
  | cons e es ih =>
    simp only [List.map_cons, List.nodup_cons] at hnd
    simp only [List.foldl_cons]
    rw [ih hnd.2]
    by_cases hm : e.1 = m
    · have hnone : getResponse es m = none := by
        apply getResponse_eq_none_of_not_mem
        intro hmem
        exact hnd.1 (hm ▸ hmem)
      rw [hnone]
      simp only [getResponse, if_pos hm]
      subst hm
      exact getResponse_addResponse_self acc e.1 e.2
    · simp only [getResponse, if_neg hm]
      cases hes : getResponse es m with
      | some r => simp
      | none => simp [getResponse_addResponse_ne acc e.1 m e.2 (fun hc => hm hc.symm)]

theorem getResponse_applyEvents (events : List (String × ModelResponse))
    (hnd : (events.map Prod.fst).Nodup) (m : String) :
    getResponse (applyEvents events) m = getResponse events m := by
  unfold applyEvents clearResponses
  rw [getResponse_foldl_addResponse events hnd [] m]
  cases getResponse events m <;> rfl

theorem getResponse_perm_of_nodup (l l' : Tracker)
    (hperm : l.Perm l') (hnd : (l.map Prod.fst).Nodup) (m : String) :
    getResponse l m = getResponse l' m := by
  have hnd' : (l'.map Prod.fst).Nodup := ((hperm.map Prod.fst).nodup_iff).mp hnd
  cases h : getResponse l m with
  | some r =>
    exact (getResponse_eq_some_of_mem l' m r hnd'
      (hperm.mem_iff.mp (mem_of_getResponse_eq_some l m r h))).symm
  | none =>
    cases h' : getResponse l' m with
    | some r' =>
      have hmem : (m, r') ∈ l := hperm.mem_iff.mpr (mem_of_getResponse_eq_some l' m r' h')
      rw [getResponse_eq_some_of_mem l m r' hnd hmem] at h
      exact absurd h (by simp)
    | none => rfl

/-- C1: the completion predicate `allDone(trackerSnapshot, selectedModels)`
returns true iff every selected model has an entry that is done with
non-empty trimmed content; the hook's `allComplete` check is the same
predicate over the entries of its responses map; and the gate's value
depends only on the final per-model states, so any permutation of the
per-model completion upserts yields the same gate result. -/
theorem allDone_characterization_and_order_independence :
    (∀ (t : Tracker) (models : List String),
      (allDone t models = true ↔
        ∀ m ∈ models, ∃ r, getResponse t m = some r ∧ r.done = true ∧
          0 < (jsTrim r.content).length))
    ∧ (∀ (responses : List (String × RespEntry)),
        (allComplete responses = true ↔
          ∀ p ∈ responses, p.2.done = true ∧ 0 < (jsTrim p.2.content).length))
    ∧ (∀ (events events' : List (String × ModelResponse)) (models : List String),
        events.Perm events' → (events.map Prod.fst).Nodup →
        allDone (applyEvents events) models = allDone (applyEvents events') models) := by
  refine ⟨?_, ?_, ?_⟩
  · intro t models
    unfold allDone
    rw [List.all_eq_true]
    constructor
    · intro h m hm
      have := h m hm
      cases hr : getResponse t m with
      | some r =>
        rw [hr] at this
        simp only [Bool.and_eq_true, decide_eq_true_eq] at this
        exact ⟨r, rfl, this.1, this.2⟩
      | none => rw [hr] at this; simp at this
    · intro h m hm
      obtain ⟨r, hr, hd, hc⟩ := h m hm
      rw [hr]
      simp [hd, hc]
  · intro responses
    unfold allComplete
    rw [List.all_eq_true]
    constructor
    · intro h p hp
      have := h p hp
      simp only [Bool.and_eq_true, decide_eq_true_eq] at this
      exact this
    · intro h p hp
      have := h p hp
      simp [this.1, this.2]
  · intro events events' models hperm hnd
    have hg : ∀ m, getResponse (applyEvents events) m =
        getResponse (applyEvents events') m := by
      intro m
      have hnd' : (events'.map Prod.fst).Nodup :=
        ((hperm.map Prod.fst).nodup_iff).mp hnd
      rw [getResponse_applyEvents events hnd m,
        getResponse_applyEvents events' hnd' m]
      exact getResponse_perm_of_nodup events events' hperm hnd m
    unfold allDone
    congr 1
    funext m
    rw [hg m]

theorem except_bind_ok {ε α β : Type} (x : Except ε α) (f : α → Except ε β) (b : β)
    (h : x.bind f = Except.ok b) : ∃ a, x = Except.ok a ∧ f a = Except.ok b := by
  cases x with
  | error e => simp [Except.bind] at h
  | ok a => exact ⟨a, rfl, h⟩

theorem clamp_bounds (x : ℚ) : 1 ≤ max 1 (min 4 x) ∧ max 1 (min 4 x) ≤ 4 :=
  ⟨le_max_left 1 _, max_le (by norm_num) (min_le_left _ _)⟩

theorem validateScore_bounds (value : JVal) (name : String) (x : ℚ)
    (h : validateScore value name = Except.ok x) : 1 ≤ x ∧ x ≤ 4 := by
  unfold validateScore at h
  cases hv : toNumber value with
  | none => rw [hv] at h; simp at h
  | some num =>
    rw [hv] at h
    simp only at h
    by_cases hb : num < 1 ∨ num > 4
    · rw [if_pos hb] at h
      simp at h
    · rw [if_neg hb] at h
      simp only [Except.ok.injEq] at h
      subst h
      exact clamp_bounds _

theorem validateScore_error_of_out_of_bound (value : JVal) (name : String) (q : ℚ)
    (hv : toNumber value = some q) (hb : q < 1 ∨ q > 4) :
    validateScore value name = Except.error ("Invalid " ++ name ++ " score") := by
  unfold validateScore
  rw [hv]
  simp only
  rw [if_pos hb]

/-- C6: whenever `validateEvaluation` returns at all, every returned
evaluation has its five parameter scores within [1, 4], a `finalScore`
within [1, 4], and exactly the five configured criteria in
`parameterScores`, in order. -/
theorem validateEvaluation_bounds (data : JVal) (ev : ResponseEvaluation)
    (h : validateEvaluation data = Except.ok ev) :
    ev.parameterScores.map Prod.fst =
        ["accuracy", "depth", "clarity", "structure", "relevance"]
      ∧ (∀ p ∈ ev.parameterScores, 1 ≤ p.2 ∧ p.2 ≤ 4)
      ∧ 1 ≤ ev.finalScore ∧ ev.finalScore ≤ 4 := by
  unfold validateEvaluation at h
  obtain ⟨readability, hr, h⟩ := except_bind_ok _ _ _ h
  obtain ⟨readabilityStr, hrs, h⟩ := except_bind_ok _ _ _ h
  obtain ⟨scores, hsc, h⟩ := except_bind_ok _ _ _ h
  obtain ⟨accuracy, hacc, h⟩ := except_bind_ok _ _ _ h
  obtain ⟨depth, hdep, h⟩ := except_bind_ok _ _ _ h
  obtain ⟨clarity, hcla, h⟩ := except_bind_ok _ _ _ h
  obtain ⟨structureScore, hstr, h⟩ := except_bind_ok _ _ _ h
  obtain ⟨relevance, hrel, h⟩ := except_bind_ok _ _ _ h
  obtain ⟨finalScoreField, hfs, h⟩ := except_bind_ok _ _ _ h
  simp only [pure, Except.pure, Except.ok.injEq] at h
  subst h
  refine ⟨rfl, ?_, clamp_bounds _⟩
  intro p hp
  simp only [List.mem_cons, List.not_mem_nil, or_false] at hp
  rcases hp with hp | hp | hp | hp | hp <;> subst hp
  · exact validateScore_bounds _ _ _ hacc
  · exact validateScore_bounds _ _ _ hdep
  · exact validateScore_bounds _ _ _ hcla
  · exact validateScore_bounds _ _ _ hstr
  · exact validateScore_bounds _ _ _ hrel

theorem validateEvaluation_bounds_witness :
    ∃ ev, validateEvaluation (JVal.obj
        [("readability", JVal.str "easy"),
         ("parameterScores", JVal.obj
           [("accuracy", JVal.num 3), ("depth", JVal.num 3), ("clarity", JVal.num 3),
            ("structure", JVal.num 3), ("relevance", JVal.num 3)]),
         ("finalScore", JVal.num 5)]) = Except.ok ev
      ∧ ev.parameterScores.map Prod.fst =
          ["accuracy", "depth", "clarity", "structure", "relevance"]
      ∧ (∀ p ∈ ev.parameterScores, 1 ≤ p.2 ∧ p.2 ≤ 4)
      ∧ 1 ≤ ev.finalScore ∧ ev.finalScore ≤ 4 := by
  have hs3 : validateScore (JVal.num 3) "accuracy" = Except.ok 3 ∧
      validateScore (JVal.num 3) "depth" = Except.ok 3 ∧
      validateScore (JVal.num 3) "clarity" = Except.ok 3 ∧
      validateScore (JVal.num 3) "structure" = Except.ok 3 ∧
      validateScore (JVal.num 3) "relevance" = Except.ok 3 := by
    have hr3 : round1 3 = 3 := by
      unfold round1 jsRound
      norm_num
    refine ⟨?_, ?_, ?_, ?_, ?_⟩ <;>
      · simp only [validateScore, toNumber]
        rw [if_neg (by norm_num), hr3]
        norm_num
  have heval : validateEvaluation (JVal.obj
      [("readability", JVal.str "easy"),
       ("parameterScores", JVal.obj
         [("accuracy", JVal.num 3), ("depth", JVal.num 3), ("clarity", JVal.num 3),
          ("structure", JVal.num 3), ("relevance", JVal.num 3)]),
       ("finalScore", JVal.num 5)]) =
      Except.ok ⟨"easy",
        [("accuracy", 3), ("depth", 3), ("clarity", 3), ("structure", 3),
         ("relevance", 3)], max 1 (min 4 (max 1 (min 4 (round1 5))))⟩ := by
    simp [validateEvaluation, validateReadability, JVal.get, getField, JVal.getOpt, readabilityLevels,
      bind, Except.bind, hs3.1, hs3.2.1, hs3.2.2.1, hs3.2.2.2.1, hs3.2.2.2.2,
      pure, Except.pure]
  exact ⟨_, heval, validateEvaluation_bounds _ _ heval⟩

/-- C5 as frozen is false: a payload that is well-formed except for
`accuracy = 5` on the 1-4 scale is rejected with an error by
`validateEvaluation`; the out-of-bound parameter score is not clamped. -/
theorem validateEvaluation_rejects_out_of_bound_param :
    validateEvaluation (JVal.obj
      [("readability", JVal.str "easy"),
       ("parameterScores", JVal.obj
         [("accuracy", JVal.num 5), ("depth", JVal.num 2), ("clarity", JVal.num 2),
          ("structure", JVal.num 2), ("relevance", JVal.num 2)]),
       ("finalScore", JVal.num 2)]) =
      Except.error "Invalid accuracy score" := by
  have hacc : validateScore (JVal.num 5) "accuracy" =
      Except.error "Invalid accuracy score" := by
    have := validateScore_error_of_out_of_bound (JVal.num 5) "accuracy" 5 rfl
      (by norm_num)
    simpa using this
  simp [validateEvaluation, validateReadability, JVal.get, getField, JVal.getOpt, readabilityLevels,
    bind, Except.bind, hacc]

/-- C5 (amended): an out-of-bound parameter score causes the whole
evaluation to be rejected with an error rather than being clamped;
clamping applies only after the bound check passes (to one-decimal
rounding) and to the separately handled `finalScore` field. -/
theorem validateEvaluation_error_of_out_of_bound_param (data scores : JVal) (q : ℚ)
    (hsc : data.get "parameterScores" = Except.ok scores)
    (hacc : toNumber (scores.getOpt "accuracy") = some q)
    (hb : q < 1 ∨ q > 4) :
    ∃ e, validateEvaluation data = Except.error e := by
  have hdata : ∃ r, data.get "readability" = Except.ok r := by
    cases data <;> simp [JVal.get] at hsc ⊢
  obtain ⟨r, hr⟩ := hdata
  unfold validateEvaluation
  rw [hr]
  simp only [bind, Except.bind]
  cases hv : validateReadability r with
  | error e => exact ⟨_, rfl⟩
  | ok s =>
    rw [hsc]
    simp only [validateScore_error_of_out_of_bound _ _ _ hacc hb]
    exact ⟨_, rfl⟩

theorem validateEvaluation_error_witness :
    ∃ e, validateEvaluation (JVal.obj
      [("readability", JVal.str "easy"),
       ("parameterScores", JVal.obj
         [("accuracy", JVal.num 5), ("depth", JVal.num 2), ("clarity", JVal.num 2),
          ("structure", JVal.num 2), ("relevance", JVal.num 2)]),
       ("finalScore", JVal.num 2)]) = Except.error e :=
  validateEvaluation_error_of_out_of_bound_param _
    (JVal.obj
      [("accuracy", JVal.num 5), ("depth", JVal.num 2), ("clarity", JVal.num 2),
       ("structure", JVal.num 2), ("relevance", JVal.num 2)]) 5
    (by simp [JVal.get, getField]) rfl (by norm_num)

/-- C10 as frozen is false: `JSON.parse` can return null, and property
access on null throws, so `validateHighlightAnalysis` is not total. -/
theorem validateHighlightAnalysis_throws_on_null :
    validateHighlightAnalysis JVal.null =
      Except.error "TypeError: cannot read properties of null" := rfl

/-- C10 (amended): on every input other than null and undefined,
`validateHighlightAnalysis` never throws and returns exactly the
string-typed elements, in order, of each field when that field is an
array, and the empty list otherwise. -/
theorem validateHighlightAnalysis_total_on_nonnull (v : JVal)
    (h1 : v ≠ JVal.null) (h2 : v ≠ JVal.undefined) :
    validateHighlightAnalysis v =
        Except.ok ⟨stringElems (v.getOpt "similarSentences"),
          stringElems (v.getOpt "differentSentences")⟩
      ∧ (∀ xs, stringElems (JVal.arr xs) =
          xs.filterMap (fun x => match x with | JVal.str s => some s | _ => none))
      ∧ (∀ w : JVal, (∀ xs, w ≠ JVal.arr xs) → stringElems w = []) := by
  refine ⟨?_, fun xs => rfl, ?_⟩
  · cases v with
    | null => exact absurd rfl h1
    | undefined => exact absurd rfl h2
    | bool b => rfl
    | num q => rfl
    | str s => rfl
    | arr xs => rfl
    | obj fs => rfl
  · intro w hw
    cases w with
    | arr xs => exact absurd rfl (hw xs)
    | null => rfl
    | undefined => rfl
    | bool b => rfl
    | num q => rfl
    | str s => rfl
    | obj fs => rfl

theorem validateHighlightAnalysis_total_witness :
    validateHighlightAnalysis
        (JVal.obj [("similarSentences", JVal.arr [JVal.str "x", JVal.num 3]),
                   ("differentSentences", JVal.num 7)]) =
      Except.ok ⟨["x"], []⟩ := by
  have h := validateHighlightAnalysis_total_on_nonnull
    (JVal.obj [("similarSentences", JVal.arr [JVal.str "x", JVal.num 3]),
               ("differentSentences", JVal.num 7)])
    (by simp) (by simp)
  rw [h.1]
  rfl

theorem allDone_characterization_witness :
    allDone [("a", ⟨"a", "hello", true, none⟩)] ["a"] = true ∧
    allDone
        (applyEvents [("a", ⟨"a", "He", true, none⟩), ("b", ⟨"b", "Hi", true, none⟩)])
        ["a", "b"] =
      allDone
        (applyEvents [("b", ⟨"b", "Hi", true, none⟩), ("a", ⟨"a", "He", true, none⟩)])
        ["a", "b"] := by
  constructor
  · exact (allDone_characterization_and_order_independence.1 _ _).mpr
      (by
        intro m hm
        simp only [List.mem_singleton] at hm
        subst hm
        exact ⟨⟨"a", "hello", true, none⟩, by decide⟩)
  · exact allDone_characterization_and_order_independence.2.2 _ _ _
      (by decide) (by decide)

theorem applyChunks_frame (model : String) (chunks : List StreamChunk)
    (m' : String) (h : m' ≠ model) :
    ∀ (t : Tracker) (full : String),
      getResponse (applyChunks model chunks t full).1 m' = getResponse t m' := by
  induction chunks with
  | nil => intro t full; rfl
  | cons c cs ih =>
    intro t full
    unfold applyChunks
    by_cases hc : c.content ≠ ""
    · rw [if_pos hc, ih]
      exact getResponse_addResponse_ne t model m' _ h
    · rw [if_neg hc]
      exact ih t full

theorem applyChunks_snd (model : String) (chunks : List StreamChunk) :
    ∀ (t : Tracker) (full : String),
      (applyChunks model chunks t full).2 =
        chunks.foldl (fun a c => if c.content ≠ "" then a ++ c.content else a) full := by
  induction chunks with
  | nil => intro t full; rfl
  | cons c cs ih =>
    intro t full
    unfold applyChunks
    rw [List.foldl_cons]
    by_cases hc : c.content ≠ ""
    · rw [if_pos hc, if_pos hc, ih]
    · rw [if_neg hc, if_neg hc, ih]

theorem applyChunks_all_empty (model : String) (chunks : List StreamChunk)
    (hall : ∀ c ∈ chunks, c.content = "") :
    ∀ (t : Tracker) (full : String), applyChunks model chunks t full = (t, full) := by
  induction chunks with
  | nil => intro t full; rfl
  | cons c cs ih =>
    intro t full
    unfold applyChunks
    rw [if_neg (by simpa using hall c (List.mem_cons_self c cs))]
    exact ih (fun c' hc' => hall c' (List.mem_cons_of_mem c hc')) t full

theorem applyChunks_last_entry (model : String) (chunks : List StreamChunk) :
    ∀ (t : Tracker) (full : String), (∃ c ∈ chunks, c.content ≠ "") →
      ∃ d, getResponse (applyChunks model chunks t full).1 model =
        some ⟨model, (applyChunks model chunks t full).2, d, none⟩ := by
  induction chunks with
  | nil => intro t full hex; simp at hex
  | cons c cs ih =>
    intro t full hex
    unfold applyChunks
    by_cases hc : c.content ≠ ""
    · rw [if_pos hc]
      by_cases hcs : ∃ c' ∈ cs, c'.content ≠ ""
      · exact ih _ _ hcs
      · push_neg at hcs
        rw [applyChunks_all_empty model cs hcs]
        exact ⟨c.done, getResponse_addResponse_self _ _ _⟩
    · rw [if_neg hc]
      apply ih
      rcases hex with ⟨c', hc', hne⟩
      rcases List.mem_cons.mp hc' with rfl | hmem
      · exact absurd hne hc
      · exact ⟨c', hmem, hne⟩

theorem streamModelResponse_self (model : String) (o : StreamOutcome)
    (s : Bool) (t : Tracker) (msgs : List Message) :
    getResponse (streamModelResponse model o s t msgs).tracker model =
      some (finalEntryOf model o) := by
  cases o with
  | ok chunks =>
    simp only [streamModelResponse, finalEntryOf]
    rw [applyChunks_snd, getResponse_addResponse_self]
    rfl
  | failAfter chunks errMsg =>
    simp only [streamModelResponse, finalEntryOf]
    rw [getResponse_addResponse_self]

theorem streamModelResponse_frame (model : String) (o : StreamOutcome)
    (s : Bool) (t : Tracker) (msgs : List Message) (m' : String) (h : m' ≠ model) :
    getResponse (streamModelResponse model o s t msgs).tracker m' =
      getResponse t m' := by
  cases o with
  | ok chunks =>
    simp only [streamModelResponse]
    rw [getResponse_addResponse_ne _ _ _ _ h]
    exact applyChunks_frame model chunks m' h t ""
  | failAfter chunks errMsg =>
    simp only [streamModelResponse]
    rw [getResponse_addResponse_ne _ _ _ _ h]
    exact applyChunks_frame model chunks m' h t ""

theorem streamModelResponse_messages (model : String) (o : StreamOutcome)
    (t : Tracker) (msgs : List Message) :
    (streamModelResponse model o true t msgs).messages =
      msgs ++ persistedOf model o := by
  cases o with
  | ok chunks =>
    simp only [streamModelResponse, persistedOf]
    rw [applyChunks_snd]
    by_cases hc :
        chunks.foldl (fun a c => if c.content ≠ "" then a ++ c.content else a) "" ≠ ""
    · rw [if_pos ⟨trivial, hc⟩]
      rw [if_pos (by simpa [streamedContent] using hc)]
      rfl
    · rw [if_neg (by simpa using hc)]
      rw [if_neg (by simpa [streamedContent] using hc)]
      simp
  | failAfter chunks errMsg =>
    simp [streamModelResponse, persistedOf]

theorem persistedOf_model (x : String) (o : StreamOutcome) :
    ∀ y ∈ persistedOf x o, y.model = some x := by
  intro y hy
  cases o with
  | ok chunks =>
    simp only [persistedOf] at hy
    by_cases hc : streamedContent chunks ≠ ""
    · rw [if_pos hc] at hy
      simp only [List.mem_singleton] at hy
      subst hy
      rfl
    · rw [if_neg hc] at hy
      simp at hy
  | failAfter chunks errMsg => simp [persistedOf] at hy

theorem sendMessageLoop_invoked (outs : String → StreamOutcome)
    (models : List String) : ∀ (t : Tracker) (msgs : List Message),
    (sendMessageLoop outs models t msgs).2.2 = models := by
  induction models with
  | nil => intro t msgs; rfl
  | cons m ms ih =>
    intro t msgs
    simp only [sendMessageLoop]
    rw [ih]

theorem sendMessageLoop_messages (outs : String → StreamOutcome)
    (models : List String) : ∀ (t : Tracker) (msgs : List Message),
    (sendMessageLoop outs models t msgs).2.1 =
      msgs ++ models.flatMap (fun x => persistedOf x (outs x)) := by
  induction models with
  | nil => intro t msgs; simp [sendMessageLoop]
  | cons m ms ih =>
    intro t msgs
    simp only [sendMessageLoop]
    rw [ih, streamModelResponse_messages]
    simp

theorem sendMessageLoop_frame (outs : String → StreamOutcome)
    (models : List String) (m' : String) (h : m' ∉ models) :
    ∀ (t : Tracker) (msgs : List Message),
      getResponse (sendMessageLoop outs models t msgs).1 m' = getResponse t m' := by
  induction models with
  | nil => intro t msgs; rfl
  | cons m ms ih =>
    intro t msgs
    simp only [List.mem_cons, not_or] at h
    simp only [sendMessageLoop]
    rw [ih h.2]
    exact streamModelResponse_frame m (outs m) true t msgs m' h.1

theorem sendMessageLoop_self (outs : String → StreamOutcome)
    (models : List String) (hnd : models.Nodup) (m : String) (hm : m ∈ models) :
    ∀ (t : Tracker) (msgs : List Message),
      getResponse (sendMessageLoop outs models t msgs).1 m =
        some (finalEntryOf m (outs m)) := by
  induction models with
  | nil => simp at hm
  | cons x xs ih =>
    intro t msgs
    simp only [List.nodup_cons] at hnd
    simp only [sendMessageLoop]
    rcases List.mem_cons.mp hm with rfl | hmem
    · rw [sendMessageLoop_frame outs xs m hnd.1]
      exact streamModelResponse_self m (outs m) true t msgs
    · exact ih hnd.2 hmem _ _

theorem filter_persistedOf_eq_nil (x m' : String) (o : StreamOutcome)
    (h : x ≠ m') :
    (persistedOf x o).filter (fun y => y.model = some m') = [] := by
  rw [List.filter_eq_nil_iff]
  intro y hy
  have := persistedOf_model x o y hy
  simp [this, h]

/-- C4 as frozen is false: after streaming "Partial" and then failing, the
final tracker entry's content is the empty string, not "Partial" — the
catch branch builds `{ content: "", done: true, error }`. -/
theorem streamError_discards_partial_content :
    getResponse (streamModelResponse "a"
        (StreamOutcome.failAfter [⟨"Partial", false⟩] "network error")
        true [] []).tracker "a" =
      some ⟨"a", "", true, some "network error"⟩
    ∧ getResponse (streamModelResponse "a"
        (StreamOutcome.failAfter [⟨"Partial", false⟩] "network error")
        true [] []).tracker "a" ≠
      some ⟨"a", "Partial", true, some "network error"⟩ := by
  constructor
  · rw [streamModelResponse_self]
    rfl
  · rw [streamModelResponse_self]
    simp [finalEntryOf]

/-- C4 (amended): when a model's stream errors after some content chunks
were applied, the already-streamed content was visible in the tracker up
to the failure, but the final entry replaces it: the model ends with
`content = ""`, `done = true` and the error message set, and nothing is
persisted for it. -/
theorem streamError_final_entry (model : String) (chunks : List StreamChunk)
    (errMsg : String) (t : Tracker) (msgs : List Message)
    (hex : ∃ c ∈ chunks, c.content ≠ "") :
    (∃ d, getResponse (applyChunks model chunks t "").1 model =
        some ⟨model, streamedContent chunks, d, none⟩)
    ∧ getResponse (streamModelResponse model
        (StreamOutcome.failAfter chunks errMsg) true t msgs).tracker model =
      some ⟨model, "", true, some errMsg⟩
    ∧ (streamModelResponse model (StreamOutcome.failAfter chunks errMsg)
        true t msgs).messages = msgs := by
  refine ⟨?_, ?_, rfl⟩
  · have h := applyChunks_last_entry model chunks t "" hex
    rwa [applyChunks_snd, ← streamedContent] at h
  · rw [streamModelResponse_self]
    rfl

theorem streamError_final_entry_witness :
    (∃ c ∈ [(⟨"Partial", false⟩ : StreamChunk)], c.content ≠ "")
    ∧ (∃ d, getResponse
        (applyChunks "a" [⟨"Partial", false⟩] [] "").1 "a" =
        some ⟨"a", streamedContent [⟨"Partial", false⟩], d, none⟩) := by
  have hex : ∃ c ∈ [(⟨"Partial", false⟩ : StreamChunk)], c.content ≠ "" :=
    ⟨⟨"Partial", false⟩, List.mem_singleton.mpr rfl, by decide⟩
  exact ⟨hex, (streamError_final_entry "a" [⟨"Partial", false⟩] "err" [] [] hex).1⟩

/-- C3: when one model's stream fails, `sendMessage`'s sequential loop
still invokes every model in the selected list; the failing model's
tracker entry is finalized with `done = true` and the error message; and
every sibling model's final tracker entry and persisted messages are
unchanged (they agree with any run that differs only in the failing
model's outcome). -/
theorem sendMessage_isolates_model_failure (models : List String)
    (hnd : models.Nodup) (m : String) (hm : m ∈ models)
    (outs outs' : String → StreamOutcome) (chunks : List StreamChunk)
    (emsg : String) (hfail : outs m = StreamOutcome.failAfter chunks emsg)
    (hagree : ∀ x, x ≠ m → outs' x = outs x)
    (t0 : Tracker) (msgs0 : List Message) :
    (sendMessageLoop outs models t0 msgs0).2.2 = models
    ∧ getResponse (sendMessageLoop outs models t0 msgs0).1 m =
        some ⟨m, "", true, some emsg⟩
    ∧ (∀ m' ∈ models, m' ≠ m →
        getResponse (sendMessageLoop outs models t0 msgs0).1 m' =
          getResponse (sendMessageLoop outs' models t0 msgs0).1 m')
    ∧ (∀ m', m' ≠ m →
        (sendMessageLoop outs models t0 msgs0).2.1.filter
            (fun y => y.model = some m') =
          (sendMessageLoop outs' models t0 msgs0).2.1.filter
            (fun y => y.model = some m')) := by
  refine ⟨sendMessageLoop_invoked outs models t0 msgs0, ?_, ?_, ?_⟩
  · rw [sendMessageLoop_self outs models hnd m hm, hfail]
    rfl
  · intro m' hm' hne
    rw [sendMessageLoop_self outs models hnd m' hm',
      sendMessageLoop_self outs' models hnd m' hm', hagree m' hne]
  · intro m' hne
    rw [sendMessageLoop_messages, sendMessageLoop_messages,
      List.filter_append, List.filter_append]
    congr 1
    clear hm hnd hfail
    induction models with
    | nil => rfl
    | cons x xs ih =>
      rw [List.flatMap_cons, List.flatMap_cons, List.filter_append,
        List.filter_append, ih]
      congr 1
      by_cases hx : x = m
      · subst hx
        rw [filter_persistedOf_eq_nil x m' (outs x) (fun hc => hne hc.symm),
          filter_persistedOf_eq_nil x m' (outs' x) (fun hc => hne hc.symm)]
      · rw [hagree x hx]

theorem sendMessage_isolates_model_failure_witness :
    (["a", "b"] : List String).Nodup
    ∧ "a" ∈ (["a", "b"] : List String)
    ∧ getResponse (sendMessageLoop
        (fun x => if x = "a" then
            StreamOutcome.failAfter [⟨"Par", false⟩] "boom"
          else StreamOutcome.ok [⟨"Hi", false⟩])
        ["a", "b"] [] []).1 "a" = some ⟨"a", "", true, some "boom"⟩ := by
  have h := sendMessage_isolates_model_failure ["a", "b"] (by decide) "a"
    (by decide)
    (fun x => if x = "a" then
        StreamOutcome.failAfter [⟨"Par", false⟩] "boom"
      else StreamOutcome.ok [⟨"Hi", false⟩])
    (fun x => if x = "a" then
        StreamOutcome.failAfter [⟨"Par", false⟩] "boom"
      else StreamOutcome.ok [⟨"Hi", false⟩])
    [⟨"Par", false⟩] "boom" (by simp) (fun x hx => rfl) [] []
  exact ⟨by decide, by decide, h.2.1⟩

theorem getResponse_clearModelResponse_self (t : Tracker) (m : String) :
    getResponse (clearModelResponse t m) m = none := by
  induction t with
  | nil => rfl
  | cons p ps ih =>
    simp only [clearModelResponse, List.filter_cons]
    by_cases hp : p.1 = m
    · simp only [hp]
      simpa [clearModelResponse] using ih
    · simp only [hp, decide_not, decide_eq_true_eq]
      rw [if_pos (by simp [hp])]
      simp only [getResponse, if_neg hp]
      simpa [clearModelResponse] using ih

theorem getResponse_clearModelResponse_ne (t : Tracker) (m m' : String)
    (h : m' ≠ m) : getResponse (clearModelResponse t m) m' = getResponse t m' := by
  induction t with
  | nil => rfl
  | cons p ps ih =>
    simp only [clearModelResponse, List.filter_cons]
    by_cases hp : p.1 = m
    · simp only [hp]
      have hpm : ¬ p.1 = m' := by rw [hp]; exact fun hc => h hc.symm
      rw [if_neg (by simp)]
      simp only [getResponse, if_neg hpm]
      simpa [clearModelResponse] using ih
    · rw [if_pos (by simpa using hp)]
      simp only [getResponse]
      by_cases hq : p.1 = m'
      · simp [hq]
      · simp only [if_neg hq]
        simpa [clearModelResponse] using ih

theorem findOldResponseIdxAux_spec (model : String) (actualIndex : Nat) :
    ∀ (msgs : List Message) (idx j : Nat),
      findOldResponseIdxAux msgs idx actualIndex model = some j →
      idx ≤ j ∧ actualIndex < j ∧
        ∃ msg, msgs.get? (j - idx) = some msg ∧ msg.role = "assistant" ∧
          msg.model = some model := by
  intro msgs
  induction msgs with
  | nil => intro idx j h; simp [findOldResponseIdxAux] at h
  | cons msg rest ih =>
    intro idx j h
    unfold findOldResponseIdxAux at h
    by_cases hc : actualIndex < idx ∧ msg.role = "assistant" ∧ msg.model = some model
    · rw [if_pos hc] at h
      injection h with h
      subst h
      exact ⟨le_refl _, hc.1, msg, by simp, hc.2.1, hc.2.2⟩
    · rw [if_neg hc] at h
      obtain ⟨h1, h2, m', hm', hrole, hmodel⟩ := ih (idx + 1) j h
      refine ⟨by omega, h2, m', ?_, hrole, hmodel⟩
      have hj : j - idx = (j - (idx + 1)) + 1 := by omega
      rw [hj]
      simpa using hm'

theorem findOldResponseIdx_spec (msgs : List Message) (actualIndex j : Nat)
    (model : String) (h : findOldResponseIdx msgs actualIndex model = some j) :
    actualIndex < j ∧
      ∃ msg, msgs.get? j = some msg ∧ msg.role = "assistant" ∧
        msg.model = some model := by
  obtain ⟨h1, h2, msg, hmsg, hrole, hmodel⟩ :=
    findOldResponseIdxAux_spec model actualIndex msgs 0 j h
  exact ⟨h2, msg, by simpa using hmsg, hrole, hmodel⟩

theorem filter_eraseIdx_of_not_pred {α : Type} (p : α → Bool) :
    ∀ (l : List α) (j : Nat) (a : α), l.get? j = some a → p a = false →
      (l.eraseIdx j).filter p = l.filter p := by
  intro l
  induction l with
  | nil => intro j a h _; simp at h
  | cons x xs ih =>
    intro j a h hp
    cases j with
    | zero =>
      simp only [List.get?_cons_zero, Option.some.injEq] at h
      subst h
      simp [List.eraseIdx, List.filter_cons, hp]
    | succ j' =>
      simp only [List.get?_cons_succ] at h
      simp only [List.eraseIdx, List.filter_cons]
      rw [ih j' a h hp]

/-- C7: with every model finalized, `regenerateModel(M)`'s regeneration
window removes only M's tracker entry (M's `done` becomes absent), deletes
only M's persisted assistant message of the current turn, and leaves every
other model's tracker entry, every non-M message, and the cached
evaluations byte-identical. -/
theorem regenerateModel_isolation (cid : String) (st : OrchestratorState)
    (M : String) (i j : Nat)
    (_hall : ∀ p ∈ st.tracker, p.2.done = true)
    (hi : lastUserIndex st.messages = some i)
    (hj : findOldResponseIdx st.messages i M = some j) :
    (regenerateModelWindow (some cid) st M).2 = RegenOutcome.started
    ∧ getResponse (regenerateModelWindow (some cid) st M).1.tracker M = none
    ∧ (∀ m', m' ≠ M →
        getResponse (regenerateModelWindow (some cid) st M).1.tracker m' =
          getResponse st.tracker m')
    ∧ (regenerateModelWindow (some cid) st M).1.messages = st.messages.eraseIdx j
    ∧ (∃ msg, st.messages.get? j = some msg ∧ msg.role = "assistant" ∧
        msg.model = some M ∧ i < j)
    ∧ (regenerateModelWindow (some cid) st M).1.messages.filter
          (fun y => ¬ y.model = some M) =
        st.messages.filter (fun y => ¬ y.model = some M)
    ∧ (regenerateModelWindow (some cid) st M).1.evaluations = st.evaluations := by
  obtain ⟨hij, msg, hmsg, hrole, hmodel⟩ := findOldResponseIdx_spec _ _ _ _ hj
  have hred : regenerateModelWindow (some cid) st M =
      ({ st with regenerating := addKey st.regenerating M,
                 tracker := clearModelResponse st.tracker M,
                 messages := st.messages.eraseIdx j }, RegenOutcome.started) := by
    unfold regenerateModelWindow
    simp only [hi, hj]
  rw [hred]
  refine ⟨rfl, getResponse_clearModelResponse_self _ _, ?_, rfl, ?_, ?_, rfl⟩
  · intro m' hne
    exact getResponse_clearModelResponse_ne _ _ _ hne
  · exact ⟨msg, hmsg, hrole, hmodel, hij⟩
  · exact filter_eraseIdx_of_not_pred _ st.messages j msg hmsg (by simp [hmodel])

theorem regenerateModel_isolation_witness :
    (∀ p ∈ ([("a", ⟨"a", "ca", true, none⟩), ("b", ⟨"b", "cb", true, none⟩)] :
        Tracker), p.2.done = true)
    ∧ lastUserIndex [⟨"user", "hi", none⟩, ⟨"assistant", "ca", some "a"⟩,
        ⟨"assistant", "cb", some "b"⟩] = some 0
    ∧ findOldResponseIdx [⟨"user", "hi", none⟩, ⟨"assistant", "ca", some "a"⟩,
        ⟨"assistant", "cb", some "b"⟩] 0 "b" = some 2
    ∧ getResponse (regenerateModelWindow (some "c1")
        ⟨[("a", ⟨"a", "ca", true, none⟩), ("b", ⟨"b", "cb", true, none⟩)],
         [⟨"user", "hi", none⟩, ⟨"assistant", "ca", some "a"⟩,
          ⟨"assistant", "cb", some "b"⟩], [], []⟩ "b").1.tracker "b" = none := by
  refine ⟨by decide, by decide, by decide, ?_⟩
  exact (regenerateModel_isolation "c1"
    ⟨[("a", ⟨"a", "ca", true, none⟩), ("b", ⟨"b", "cb", true, none⟩)],
     [⟨"user", "hi", none⟩, ⟨"assistant", "ca", some "a"⟩,
      ⟨"assistant", "cb", some "b"⟩], [], []⟩ "b" 0 2
    (by decide) (by decide) (by decide)).2.1

/-- C8 as frozen is false: with a chat open and a prior user message,
regenerating a model that has no prior finalized entry is not rejected —
the call proceeds and starts a new generation (and has already mutated the
regenerating set and cleared the absent tracker entry). -/
theorem regenerate_missing_model_not_rejected :
    (regenerateModelWindow (some "chat1")
        ⟨[], [⟨"user", "hi", none⟩], [], []⟩ "a").2 = RegenOutcome.started
    ∧ (regenerateModelWindow (some "chat1")
        ⟨[], [⟨"user", "hi", none⟩], [], []⟩ "a").1.regenerating = ["a"] := by
  decide

/-- C8 (amended): `regenerateModel` rejects synchronously with no state
mutation only when no chat is open; given a chat and any prior user
message the call is never rejected — even for a model with no prior
finalized entry it proceeds to start a new generation. -/
theorem regenerateModel_rejection_characterization :
    (∀ (st : OrchestratorState) (M : String),
      regenerateModelWindow none st M = (st, RegenOutcome.rejectedNoChat))
    ∧ (∀ (cid : String) (st : OrchestratorState) (M : String) (i : Nat),
        lastUserIndex st.messages = some i →
        (regenerateModelWindow (some cid) st M).2 = RegenOutcome.started) := by
  constructor
  · intro st M
    rfl
  · intro cid st M i hi
    unfold regenerateModelWindow
    simp only [hi]

theorem regenerateModel_rejection_witness :
    lastUserIndex [⟨"user", "hi", none⟩] = some 0
    ∧ (regenerateModelWindow (some "chat1")
        ⟨[], [⟨"user", "hi", none⟩], [], []⟩ "a").2 = RegenOutcome.started :=
  ⟨by decide, regenerateModel_rejection_characterization.2 "chat1"
    ⟨[], [⟨"user", "hi", none⟩], [], []⟩ "a" 0 (by decide)⟩

theorem mergeEntry_key (b : Bool) (cur : Tracker)
    (saved : List (String × Message)) (x : String) (e : String × RespEntry)
    (h : mergeEntry b cur saved x = some e) : e.1 = x := by
  unfold mergeEntry at h
  split at h
  · split at h
    · simp only [Option.some.injEq] at h
      exact (congrArg Prod.fst h).symm
    · split at h
      · simp only [Option.some.injEq] at h
        exact (congrArg Prod.fst h).symm
      · simp at h
  · split at h
    · simp only [Option.some.injEq] at h
      exact (congrArg Prod.fst h).symm
    · simp at h

theorem responsesMapMerge_keys (b : Bool) (models : List String)
    (cur : Tracker) (saved : List (String × Message)) :
    ∀ p ∈ responsesMapMerge b models cur saved, p.1 ∈ models := by
  intro p hp
  unfold responsesMapMerge at hp
  obtain ⟨x, hx, hfx⟩ := List.mem_filterMap.mp hp
  rw [mergeEntry_key b cur saved x p hfx]
  exact hx

theorem responsesMapMerge_filter_eq_nil (b : Bool) (models : List String)
    (cur : Tracker) (saved : List (String × Message)) (m : String)
    (h : m ∉ models) :
    (responsesMapMerge b models cur saved).filter (fun p => p.1 = m) = [] := by
  rw [List.filter_eq_nil_iff]
  intro p hp
  have := responsesMapMerge_keys b models cur saved p hp
  simp only [decide_eq_true_eq]
  intro hc
  exact h (hc ▸ this)

/-- C9 as frozen is false: a model present in both sources with a
persisted message and a finished live entry is still rendered from the
live value, not the persisted one — the merge and the card fallback prefer
the live value whenever it exists and is non-empty, whatever `done` is. -/
theorem view_prefers_live_after_persistence :
    responsesMapMerge true ["a"] [("a", ⟨"a", "live", true, none⟩)]
        [("a", ⟨"assistant", "saved", some "a"⟩)] = [("a", ⟨"live", true⟩)]
    ∧ responseCardContent (some "live") (some ⟨"assistant", "saved", some "a"⟩) =
        "live"
    ∧ ("live" : String) ≠ "saved" := by
  refine ⟨rfl, rfl, by decide⟩

/-- C9 (amended): in the latest turn's grid a model with a live tracker
entry is rendered from the live value whenever its content is non-empty —
regardless of `done` and of whether a persisted message exists — with the
persisted value used only as fallback; and each selected model produces
exactly one entry in the turn's merge. -/
theorem view_merge_characterization :
    (∀ (models : List String) (cur : Tracker) (saved : List (String × Message))
        (m : String) (r : ModelResponse), models.Nodup →
        getResponse cur m = some r →
        (responsesMapMerge true models cur saved).filter (fun p => p.1 = m) =
          if m ∈ models then [(m, ⟨r.content, r.done⟩)] else [])
    ∧ (∀ (sc : String) (resp : Option Message), sc ≠ "" →
        responseCardContent (some sc) resp = sc)
    ∧ (∀ resp : Option Message,
        responseCardContent (some "") resp = (resp.map Message.content).getD ""
          ∧ responseCardContent none resp = (resp.map Message.content).getD "") := by
  refine ⟨?_, ?_, ?_⟩
  · intro models cur saved m r hnd hr
    induction models with
    | nil => simp [responsesMapMerge]
    | cons x xs ih =>
      simp only [List.nodup_cons] at hnd
      by_cases hx : x = m
      · subst hx
        rw [if_pos (List.mem_cons_self x xs)]
        unfold responsesMapMerge
        rw [List.filterMap_cons]
        have hentry : mergeEntry true cur saved x =
            some (x, ⟨r.content, r.done⟩) := by
          unfold mergeEntry
          rw [if_pos rfl, hr]
        rw [hentry, List.filter_cons, if_pos (by simp)]
        have htail : (responsesMapMerge true xs cur saved).filter
            (fun p => p.1 = x) = [] :=
          responsesMapMerge_filter_eq_nil true xs cur saved x hnd.1
        unfold responsesMapMerge at htail
        rw [htail]
      · have hiff : m ∈ x :: xs ↔ m ∈ xs :=
          ⟨fun h => (List.mem_cons.mp h).resolve_left (fun hc => hx hc.symm),
           List.mem_cons_of_mem x⟩
        have hstep : (responsesMapMerge true (x :: xs) cur saved).filter
            (fun p => p.1 = m) =
            if m ∈ xs then [(m, ⟨r.content, r.done⟩)] else [] := by
          unfold responsesMapMerge
          rw [List.filterMap_cons]
          have htail := ih hnd.2
          unfold responsesMapMerge at htail
          cases hfx : mergeEntry true cur saved x with
          | none => rw [htail]
          | some e =>
            have hkey : e.1 = x := mergeEntry_key true cur saved x e hfx
            rw [List.filter_cons, if_neg (by simp [hkey, hx]), htail]
        exact hstep.trans (if_congr hiff rfl rfl).symm
  · intro sc resp h
    simp only [responseCardContent, Option.getD_some]
    rw [if_pos h]
  · intro resp
    constructor <;> rfl

theorem view_merge_characterization_witness :
    (["a", "b"] : List String).Nodup
    ∧ getResponse [("a", ⟨"a", "live", true, none⟩)] "a" =
        some ⟨"a", "live", true, none⟩
    ∧ (responsesMapMerge true ["a", "b"] [("a", ⟨"a", "live", true, none⟩)]
          [("a", ⟨"assistant", "saved", some "a"⟩)]).filter
        (fun p => p.1 = "a") =
      (if "a" ∈ (["a", "b"] : List String) then
        [("a", (⟨"live", true⟩ : RespEntry))] else []) := by
  refine ⟨by decide, by decide, ?_⟩
  exact view_merge_characterization.1 ["a", "b"]
    [("a", ⟨"a", "live", true, none⟩)]
    [("a", ⟨"assistant", "saved", some "a"⟩)] "a"
    ⟨"a", "live", true, none⟩ (by decide) (by decide)

theorem mem_addKey (l : List String) (m k : String) :
    k ∈ addKey l m ↔ k ∈ l ∨ k = m := by
  unfold addKey
  by_cases h : m ∈ l
  · rw [if_pos h]
    constructor
    · exact Or.inl
    · rintro (hk | rfl)
      · exact hk
      · exact h
  · rw [if_neg h]
    simp

theorem nodup_of_mem_removeKey (l : List String) (m k : String)
    (h : k ∈ removeKey l m) : k ∈ l := by
  unfold removeKey at h
  exact (List.mem_filter.mp h).1

theorem mem_foldl_addKey (ms : List String) :
    ∀ (l : List String) (k : String),
      k ∈ ms.foldl addKey l ↔ k ∈ l ∨ k ∈ ms := by
  induction ms with
  | nil => intro l k; simp
  | cons m ms ih =>
    intro l k
    rw [List.foldl_cons, ih, mem_addKey]
    simp only [List.mem_cons]
    tauto

theorem phase1_spec (sEval sLoad : List String) :
    ∀ (ps : List (String × RespEntry)), (ps.map Prod.fst).Nodup →
      ∀ (ev0 sel0 : List String),
      ∃ extra,
        (ps.foldl (fun acc p =>
          if p.1 ∉ acc.1 ∧ p.1 ∉ sEval ∧ p.1 ∉ sLoad then
            (addKey acc.1 p.1, acc.2 ++ [p.1])
          else acc) (ev0, sel0)).2 = sel0 ++ extra
        ∧ (∀ k, k ∈ (ps.foldl (fun acc p =>
            if p.1 ∉ acc.1 ∧ p.1 ∉ sEval ∧ p.1 ∉ sLoad then
              (addKey acc.1 p.1, acc.2 ++ [p.1])
            else acc) (ev0, sel0)).1 ↔ k ∈ ev0 ∨ k ∈ extra)
        ∧ extra.Nodup
        ∧ (∀ k ∈ extra, k ∈ ps.map Prod.fst ∧ k ∉ ev0 ∧ k ∉ sEval ∧ k ∉ sLoad)
        ∧ (∀ k ∈ ps.map Prod.fst,
            k ∉ ev0 → k ∉ sEval → k ∉ sLoad → k ∈ extra) := by
  intro ps
  induction ps with
  | nil =>
    intro _ ev0 sel0
    exact ⟨[], by simp, by simp, List.nodup_nil, by simp, by simp⟩
  | cons p ps ih =>
    intro hnd ev0 sel0
    simp only [List.map_cons, List.nodup_cons] at hnd
    simp only [List.foldl_cons]
    by_cases hc : p.1 ∉ ev0 ∧ p.1 ∉ sEval ∧ p.1 ∉ sLoad
    · rw [if_pos hc]
      obtain ⟨extra, h2, h1, hnodup, helem, hcomp⟩ :=
        ih hnd.2 (addKey ev0 p.1) (sel0 ++ [p.1])
      refine ⟨p.1 :: extra, by simpa using h2, ?_, ?_, ?_, ?_⟩
      · intro k
        rw [h1 k, mem_addKey]
        simp only [List.mem_cons]
        tauto
      · rw [List.nodup_cons]
        refine ⟨fun hmem => ?_, hnodup⟩
        have := (helem p.1 hmem).2.1
        exact this ((mem_addKey ev0 p.1 p.1).mpr (Or.inr rfl))
      · intro k hk
        rcases List.mem_cons.mp hk with rfl | hk'
        · exact ⟨List.mem_cons_self _ _, hc⟩
        · obtain ⟨hkeys, hev, hse, hsl⟩ := helem k hk'
          refine ⟨List.mem_cons_of_mem _ hkeys, ?_, hse, hsl⟩
          intro hk0
          exact hev ((mem_addKey ev0 p.1 k).mpr (Or.inl hk0))
      · intro k hk hev hse hsl
        rcases List.mem_cons.mp hk with rfl | hk'
        · exact List.mem_cons_self _ _
        · have hne : k ≠ p.1 := by
            intro hc'
            exact hnd.1 (hc' ▸ hk')
          refine List.mem_cons_of_mem _ (hcomp k hk' ?_ hse hsl)
          intro hk0
          rcases (mem_addKey ev0 p.1 k).mp hk0 with hk0 | hk0
          · exact hev hk0
          · exact hne hk0
    · rw [if_neg hc]
      obtain ⟨extra, h2, h1, hnodup, helem, hcomp⟩ := ih hnd.2 ev0 sel0
      refine ⟨extra, h2, h1, hnodup, ?_, ?_⟩
      · intro k hk
        obtain ⟨hkeys, rest⟩ := helem k hk
        exact ⟨List.mem_cons_of_mem _ hkeys, rest⟩
      · intro k hk hev hse hsl
        rcases List.mem_cons.mp hk with rfl | hk'
        · exact absurd ⟨hev, hse, hsl⟩ hc
        · exact hcomp k hk' hev hse hsl

theorem phase2_spec :
    ∀ (toEval : List String) (s1 : EvalHookState) (d0 : List String),
      (∀ m ∈ toEval, m ∉ s1.cache) →
      (toEval.foldl (fun (acc : EvalHookState × List String) m =>
        if m ∈ acc.1.cache then
          ({ acc.1 with evaluations := addKey acc.1.evaluations m }, acc.2)
        else
          ({ acc.1 with loading := addKey acc.1.loading m }, acc.2 ++ [m]))
        (s1, d0)) =
      ({ s1 with loading := toEval.foldl addKey s1.loading }, d0 ++ toEval) := by
  intro toEval
  induction toEval with
  | nil => intro s1 d0 _; simp
  | cons m ms ih =>
    intro s1 d0 h
    have hm : m ∉ s1.cache := h m (List.mem_cons_self _ _)
    simp only [List.foldl_cons]
    rw [if_neg hm]
    rw [ih { s1 with loading := addKey s1.loading m } (d0 ++ [m])
      (fun x hx => h x (List.mem_cons_of_mem _ hx))]
    simp

theorem gateFire_spec (responses : List (String × RespEntry)) (s : EvalHookState)
    (hne : responses ≠ []) (hall : allComplete responses = true)
    (hnd : (responses.map Prod.fst).Nodup)
    (hcache : ∀ m ∈ s.cache, m ∈ s.evaluations) :
    ∃ extra,
      (gateFire responses s).2 = extra
      ∧ (gateFire responses s).1.evaluations = s.evaluations
      ∧ (gateFire responses s).1.cache = s.cache
      ∧ (gateFire responses s).1.errors = s.errors
      ∧ (∀ k, k ∈ (gateFire responses s).1.evaluatedModels ↔
          k ∈ s.evaluatedModels ∨ k ∈ extra)
      ∧ (∀ k, k ∈ (gateFire responses s).1.loading ↔ k ∈ s.loading ∨ k ∈ extra)
      ∧ extra.Nodup
      ∧ (∀ k ∈ extra, k ∈ responses.map Prod.fst ∧ k ∉ s.evaluatedModels
          ∧ k ∉ s.evaluations ∧ k ∉ s.loading)
      ∧ (∀ k ∈ responses.map Prod.fst, k ∉ s.evaluatedModels →
          k ∉ s.evaluations → k ∉ s.loading → k ∈ extra) := by
  have hlen : ¬ responses.length = 0 := by
    simpa [List.length_eq_zero] using hne
  have hfil : responses.filter
      (fun p => 0 < (jsTrim p.2.content).length) = responses := by
    rw [List.filter_eq_self]
    intro p hp
    have := (List.all_eq_true.mp hall) p hp
    simp only [Bool.and_eq_true] at this
    exact this.2
  obtain ⟨extra, h2, h1, hnodup, helem, hcomp⟩ :=
    phase1_spec s.evaluations s.loading responses hnd s.evaluatedModels []
  simp only [List.nil_append] at h2
  have hg : gateFire responses s =
      ({ s with
          evaluatedModels := (responses.foldl (fun acc p =>
            if p.1 ∉ acc.1 ∧ p.1 ∉ s.evaluations ∧ p.1 ∉ s.loading then
              (addKey acc.1 p.1, acc.2 ++ [p.1])
            else acc) (s.evaluatedModels, [])).1,
          loading := extra.foldl addKey s.loading }, extra) := by
    unfold gateFire
    rw [if_neg hlen, if_neg (fun hcon => hcon hall)]
    simp only [hfil]
    rw [h2]
    rw [phase2_spec extra { s with evaluatedModels := (responses.foldl
        (fun acc p =>
          if p.1 ∉ acc.1 ∧ p.1 ∉ s.evaluations ∧ p.1 ∉ s.loading then
            (addKey acc.1 p.1, acc.2 ++ [p.1])
          else acc) (s.evaluatedModels, [])).1 } []
      (fun m hm hc => (helem m hm).2.2.1 (hcache m hc))]
    simp
  rw [hg]
  refine ⟨extra, rfl, rfl, rfl, rfl, ?_, ?_, hnodup, helem, hcomp⟩
  · intro k
    exact h1 k
  · intro k
    exact mem_foldl_addKey extra s.loading k

theorem gateFire_preserves_invariant (responses : List (String × RespEntry))
    (s : EvalHookState) (d : List String)
    (hne : responses ≠ []) (hall : allComplete responses = true)
    (hnd : (responses.map Prod.fst).Nodup)
    (hInv : EvalInvariant (responses.map Prod.fst) s d) :
    EvalInvariant (responses.map Prod.fst) (gateFire responses s).1
        (d ++ (gateFire responses s).2)
    ∧ (∀ k, k ∈ s.evaluatedModels → k ∈ (gateFire responses s).1.evaluatedModels)
    ∧ (∀ k ∈ responses.map Prod.fst,
        k ∈ (gateFire responses s).1.evaluatedModels) := by
  obtain ⟨i1, i2, i3, i4, i5, i6⟩ := hInv
  obtain ⟨extra, hd, hev, hca, herr, hem, hld, hnodup, helem, hcomp⟩ :=
    gateFire_spec responses s hne hall hnd i1
  rw [hd]
  refine ⟨⟨?_, ?_, ?_, ?_, ?_, ?_⟩, ?_, ?_⟩
  · intro m hm
    rw [hca] at hm
    rw [hev]
    exact i1 m hm
  · intro m hm
    rw [hev] at hm
    exact (hem m).mpr (Or.inl (i2 m hm))
  · intro m hm
    rcases (hld m).mp hm with hm' | hm'
    · exact (hem m).mpr (Or.inl (i3 m hm'))
    · exact (hem m).mpr (Or.inr hm')
  · intro m
    rw [hem m, List.mem_append, i4 m]
  · rw [List.nodup_append]
    refine ⟨i5, hnodup, ?_⟩
    intro k hk hk'
    exact (helem k hk').2.1 ((i4 k).mpr hk)
  · intro m hm
    rcases (hem m).mp hm with hm' | hm'
    · exact i6 m hm'
    · exact (helem m hm').1
  · intro k hk
    exact (hem k).mpr (Or.inl hk)
  · intro k hk
    by_cases hk0 : k ∈ s.evaluatedModels
    · exact (hem k).mpr (Or.inl hk0)
    · refine (hem k).mpr (Or.inr (hcomp k hk hk0 ?_ ?_))
      · intro hc
        exact hk0 (i2 k hc)
      · intro hc
        exact hk0 (i3 k hc)

theorem completeSuccess_preserves_invariant (keys : List String)
    (s : EvalHookState) (d : List String) (m : String)
    (hInv : EvalInvariant keys s d) :
    EvalInvariant keys (completeSuccess s m) d
    ∧ (completeSuccess s m).evaluatedModels = s.evaluatedModels := by
  obtain ⟨i1, i2, i3, i4, i5, i6⟩ := hInv
  unfold completeSuccess
  by_cases hm : m ∈ s.loading
  · rw [if_pos hm]
    refine ⟨⟨?_, ?_, ?_, i4, i5, i6⟩, rfl⟩
    · intro k hk
      rcases (mem_addKey s.cache m k).mp hk with hk' | rfl
      · exact (mem_addKey s.evaluations m k).mpr (Or.inl (i1 k hk'))
      · exact (mem_addKey s.evaluations k k).mpr (Or.inr rfl)
    · intro k hk
      rcases (mem_addKey s.evaluations m k).mp hk with hk' | rfl
      · exact i2 k hk'
      · exact i3 k hm
    · intro k hk
      exact i3 k (nodup_of_mem_removeKey s.loading m k hk)
  · rw [if_neg hm]
    exact ⟨⟨i1, i2, i3, i4, i5, i6⟩, rfl⟩

theorem runEvalSteps_spec (responses : List (String × RespEntry))
    (hne : responses ≠ []) (hall : allComplete responses = true)
    (hnd : (responses.map Prod.fst).Nodup) :
    ∀ (steps : List EvalStep) (s : EvalHookState) (d : List String),
      EvalInvariant (responses.map Prod.fst) s d →
      EvalInvariant (responses.map Prod.fst) (runEvalSteps responses s steps).1
          (d ++ (runEvalSteps responses s steps).2)
      ∧ (∀ k, k ∈ s.evaluatedModels →
          k ∈ (runEvalSteps responses s steps).1.evaluatedModels)
      ∧ (EvalStep.fire ∈ steps →
          ∀ k ∈ responses.map Prod.fst,
            k ∈ (runEvalSteps responses s steps).1.evaluatedModels) := by
  intro steps
  induction steps with
  | nil =>
    intro s d h
    refine ⟨?_, ?_, ?_⟩ <;> simp only [runEvalSteps]
    · simpa using h
    · exact fun k hk => hk
    · intro hfire
      simp at hfire
  | cons st rest ih =>
    cases st with
    | fire =>
      intro s d h
      obtain ⟨hI, hmono0, hkeys⟩ :=
        gateFire_preserves_invariant responses s d hne hall hnd h
      obtain ⟨ih1, ih2, ih3⟩ :=
        ih (gateFire responses s).1 (d ++ (gateFire responses s).2) hI
      refine ⟨?_, ?_, ?_⟩
      · simp only [runEvalSteps]
        simpa [List.append_assoc] using ih1
      · intro k hk
        simp only [runEvalSteps]
        exact ih2 k (hmono0 k hk)
      · intro _ k hk
        simp only [runEvalSteps]
        exact ih2 k (hkeys k hk)
    | resolve m =>
      intro s d h
      obtain ⟨hI, hEq⟩ :=
        completeSuccess_preserves_invariant (responses.map Prod.fst) s d m h
      obtain ⟨ih1, ih2, ih3⟩ := ih (completeSuccess s m) d hI
      refine ⟨ih1, ?_, ?_⟩
      · intro k hk
        exact ih2 k (hEq ▸ hk)
      · intro hfire k hk
        refine ih3 ?_ k hk
        rcases List.mem_cons.mp hfire with hc | hc
        · exact absurd hc (by simp)
        · exact hc

/-- C2: from a fresh question, for fixed responses that are all complete,
any interleaving of N effect runs (N >= 1, in particular N >= 2) with
successful request resolutions dispatches exactly one evaluation request
per qualifying model and none for other models: a model in the idempotency
set, the result map, or in flight is never dispatched again. -/
theorem evaluation_dispatched_exactly_once (responses : List (String × RespEntry))
    (hne : responses ≠ []) (hall : allComplete responses = true)
    (hnd : (responses.map Prod.fst).Nodup) (steps : List EvalStep)
    (hfire : EvalStep.fire ∈ steps) :
    (∀ m ∈ responses.map Prod.fst,
      List.count m (runEvalSteps responses initialEvalHookState steps).2 = 1)
    ∧ (∀ m, m ∉ responses.map Prod.fst →
        List.count m (runEvalSteps responses initialEvalHookState steps).2 = 0) := by
  have hInv0 : EvalInvariant (responses.map Prod.fst) initialEvalHookState [] := by
    unfold EvalInvariant initialEvalHookState
    simp
  obtain ⟨hI, hmono, hcompl⟩ :=
    runEvalSteps_spec responses hne hall hnd steps initialEvalHookState [] hInv0
  simp only [List.nil_append] at hI
  obtain ⟨i1, i2, i3, i4, i5, i6⟩ := hI
  constructor
  · intro m hm
    have hmem : m ∈ (runEvalSteps responses initialEvalHookState steps).2 :=
      (i4 m).mp (hcompl hfire m hm)
    exact List.count_eq_one_of_mem i5 hmem
  · intro m hm
    rw [List.count_eq_zero]
    intro hmem
    exact hm (i6 m ((i4 m).mpr hmem))

theorem evaluation_dispatched_exactly_once_witness :
    ([("a", (⟨"hello", true⟩ : RespEntry)), ("b", ⟨"hi", true⟩)] ≠
        ([] : List (String × RespEntry)))
    ∧ allComplete [("a", ⟨"hello", true⟩), ("b", ⟨"hi", true⟩)] = true
    ∧ EvalStep.fire ∈ [EvalStep.fire, EvalStep.resolve "a", EvalStep.fire]
    ∧ (∀ m ∈ ([("a", (⟨"hello", true⟩ : RespEntry)),
          ("b", ⟨"hi", true⟩)]).map Prod.fst,
        List.count m (runEvalSteps
          [("a", ⟨"hello", true⟩), ("b", ⟨"hi", true⟩)]
          initialEvalHookState
          [EvalStep.fire, EvalStep.resolve "a", EvalStep.fire]).2 = 1) := by
  refine ⟨by decide, by decide, by decide, ?_⟩
  exact (evaluation_dispatched_exactly_once
    [("a", ⟨"hello", true⟩), ("b", ⟨"hi", true⟩)] (by decide) (by decide)
    (by decide) [EvalStep.fire, EvalStep.resolve "a", EvalStep.fire]
    (by decide)).1

end OllamaLens
